import Mathlib

/-!
# Verification of the gitstack branch-stacking tool

A shallow embedding of `gitstack.py`.  Python dictionaries are modelled as
association lists (`List (String × α)`) whose operations mirror dict
assignment, `pop`, and lookup; Python sets of branch names are modelled as
duplicate-free `List String`.  Side-effecting operations (subprocess calls,
prompts) are modelled by passing their observed results as parameters and
returning the action the program would perform.
-/

namespace GitStack

/-- Python dict lookup `m.get(k)` / `m[k]`: the first entry with the key. -/
def dlookup : List (String × α) → String → Option α
  | [], _ => none
  | (k2, v) :: rest, k => if k2 = k then some v else dlookup rest k

/-- Python dict assignment `m[k] = v`: replace the entry in place, or append. -/
def dinsert : List (String × α) → String → α → List (String × α)
  | [], k, v => [(k, v)]
  | (k2, v2) :: rest, k, v =>
    if k2 = k then (k, v) :: rest else (k2, v2) :: dinsert rest k v

/-- Python dict `m.pop(k)` (the removal part): drop the entry with the key. -/
def dpop : List (String × α) → String → List (String × α)
  | [], _ => []
  | (k2, v2) :: rest, k => if k2 = k then rest else (k2, v2) :: dpop rest k

/-- Keys are pairwise distinct, as in every state a Python dict can be in. -/
def KeysNodup (m : List (String × α)) : Prop := (m.map Prod.fst).Nodup

instance (m : List (String × α)) : Decidable (KeysNodup m) := by
  unfold KeysNodup; infer_instance

/-- Python set `s.add(x)`. -/
def setInsert (l : List String) (x : String) : List String :=
  if x ∈ l then l else l ++ [x]

/-- Python set `s.update(xs)`. -/
def setUnion (l : List String) (xs : List String) : List String :=
  xs.foldl setInsert l

/-- Python `ch.setdefault(p, set()).update(bs)` on a dict of sets. -/
def childUpdate : List (String × List String) → String → List String →
    List (String × List String)
  | [], p, bs => [(p, setUnion [] bs)]
  | (k, v) :: rest, p, bs =>
    if k = p then (k, setUnion v bs) :: rest else (k, v) :: childUpdate rest p bs

/-- The children recorded for a branch; `ch.get(b, set())` in the source. -/
def childrenOf (ch : List (String × List String)) (b : String) : List String :=
  (dlookup ch b).getD []

/-- `c` is listed among the children of `p`. -/
def childHas (ch : List (String × List String)) (p c : String) : Prop :=
  c ∈ childrenOf ch p

instance (ch : List (String × List String)) (p c : String) :
    Decidable (childHas ch p c) := by unfold childHas; infer_instance

/-- The in-memory state of the `GitStack` class: the persisted branch → parent
mapping, the derived parent → children mapping, and the dirty flag. -/
structure GSState where
  gitstack : List (String × String)
  gitstack_children : List (String × List String)
  stack_changed : Bool
deriving DecidableEq

/-- The inverse mapping built in `GitStack.__init__`:
`for branch, parent in gitstack.items(): children.setdefault(parent, set()).add(branch)`. -/
def buildChildren (m : List (String × String)) : List (String × List String) :=
  m.foldl (fun ch e => childUpdate ch e.2 [e.1]) []

/-- The state right after `GitStack.__init__` reads the registry `m`. -/
def initState (m : List (String × String)) : GSState :=
  { gitstack := m, gitstack_children := buildChildren m, stack_changed := false }

/-- `GitStack._track_branches`: point each branch at `parent`, extend the
children set of `parent`, and mark the registry dirty. -/
def track_branches (st : GSState) (branches : List String) (parent : String) :
    GSState :=
  { gitstack := branches.foldl (fun m br => dinsert m br parent) st.gitstack,
    gitstack_children := childUpdate st.gitstack_children parent branches,
    stack_changed := true }

/-- `GitStack._untrack_branch`: pop the branch (its former parent), pop its
children set, purge the branch from every remaining children set, and graft the
former children onto the former parent.  `none` models the `KeyError` the
source raises when the branch is untracked. -/
def untrack_branch (st : GSState) (branch : String) : Option GSState :=
  match dlookup st.gitstack branch with
  | none => none
  | some parent =>
    let children := childrenOf st.gitstack_children branch
    let ch1 := dpop st.gitstack_children branch
    let ch2 := ch1.map (fun e => (e.1, e.2.filter (fun c => decide (c ≠ branch))))
    some (track_branches
      { gitstack := dpop st.gitstack branch,
        gitstack_children := ch2,
        stack_changed := st.stack_changed }
      children parent)

/-- `GitStack.wrapup`: write the registry file back iff the dirty flag is set;
`some m` models one write of contents `m`, `none` models no write at all. -/
def wrapup (st : GSState) : Option (List (String × String)) :=
  if st.stack_changed then some st.gitstack else none

/-- The children mapping is exactly the inverse of the parent mapping, as seen
through lookups: every tracked pair is recorded as a child link, and every
recorded child link is a tracked pair. -/
def InvOK (st : GSState) : Prop :=
  (∀ e ∈ st.gitstack, childHas st.gitstack_children e.2 e.1) ∧
  (∀ e ∈ st.gitstack_children, ∀ c ∈ e.2, dlookup st.gitstack c = some e.1)

instance (st : GSState) : Decidable (InvOK st) := by
  unfold InvOK; infer_instance

/-! ## Lookup lemmas for the dictionary operations -/

theorem dlookup_mem {m : List (String × α)} {k : String} {v : α}
    (h : dlookup m k = some v) : (k, v) ∈ m := by
  induction m with
  | nil => simp [dlookup] at h
  | cons e rest ih =>
    obtain ⟨k2, v2⟩ := e
    by_cases hk : k2 = k
    · subst hk
      simp [dlookup] at h
      simp [h]
    · simp [dlookup, hk] at h
      exact List.mem_cons_of_mem _ (ih h)

theorem dlookup_dinsert (m : List (String × α)) (k : String) (v : α)
    (k2 : String) :
    dlookup (dinsert m k v) k2 = if k2 = k then some v else dlookup m k2 := by
  induction m with
  | nil =>
    rcases eq_or_ne k2 k with h | h
    · simp [dinsert, dlookup, h]
    · simp [dinsert, dlookup, h, h.symm]
  | cons e rest ih =>
    obtain ⟨k3, v3⟩ := e
    rcases eq_or_ne k3 k with h3 | h3
    · subst h3
      rcases eq_or_ne k2 k3 with h2 | h2
      · simp [dinsert, dlookup, h2]
      · simp [dinsert, dlookup, h2, h2.symm]
    · rcases eq_or_ne k3 k2 with h23 | h23
      · subst h23
        simp [dinsert, h3, dlookup, Ne.symm h3]
      · simp [dinsert, h3, dlookup, h23, ih]

theorem dlookup_dpop_ne (m : List (String × α)) (k k2 : String) (h : k2 ≠ k) :
    dlookup (dpop m k) k2 = dlookup m k2 := by
  induction m with
  | nil => simp [dpop]
  | cons e rest ih =>
    obtain ⟨k3, v3⟩ := e
    rcases eq_or_ne k3 k with h3 | h3
    · subst h3
      simp [dpop, dlookup, Ne.symm h]
    · rcases eq_or_ne k3 k2 with h23 | h23
      · subst h23
        simp [dpop, h3, dlookup]
      · simp [dpop, h3, dlookup, h23, ih]

theorem dlookup_not_mem (m : List (String × α)) (k : String)
    (h : k ∉ m.map Prod.fst) : dlookup m k = none := by
  induction m with
  | nil => simp [dlookup]
  | cons e rest ih =>
    obtain ⟨k3, v3⟩ := e
    simp at h
    have h3 : k3 ≠ k := fun hc => h.1 hc.symm
    simp [dlookup, h3]
    exact ih (by simp [h.2])

theorem dlookup_dpop_self (m : List (String × α)) (k : String)
    (h : KeysNodup m) : dlookup (dpop m k) k = none := by
  induction m with
  | nil => simp [dpop, dlookup]
  | cons e rest ih =>
    obtain ⟨k3, v3⟩ := e
    have hrest : KeysNodup rest := (List.nodup_cons.mp h).2
    by_cases h3 : k3 = k
    · subst h3
      simp [dpop]
      exact dlookup_not_mem rest k3 (List.nodup_cons.mp h).1
    · simp [dpop, dlookup, h3, ih hrest]

theorem dlookup_foldl_dinsert (cs : List String) (m : List (String × α))
    (p : α) (c : String) :
    dlookup (cs.foldl (fun m2 br => dinsert m2 br p) m) c =
      if c ∈ cs then some p else dlookup m c := by
  induction cs generalizing m with
  | nil => simp
  | cons b rest ih =>
    simp only [List.foldl_cons, ih, dlookup_dinsert]
    by_cases hb : c = b
    · subst hb
      by_cases hr : c ∈ rest <;> simp [hr]
    · by_cases hr : c ∈ rest <;> simp [hr, hb]

theorem setInsert_mem (l : List String) (y x : String) :
    x ∈ setInsert l y ↔ x ∈ l ∨ x = y := by
  unfold setInsert
  by_cases h : y ∈ l
  · simp only [if_pos h]
    constructor
    · exact Or.inl
    · rintro (hx | rfl) <;> assumption
  · simp [if_neg h]

theorem setUnion_mem (xs : List String) (l : List String) (x : String) :
    x ∈ setUnion l xs ↔ x ∈ l ∨ x ∈ xs := by
  induction xs generalizing l with
  | nil => simp [setUnion]
  | cons y rest ih =>
    show x ∈ setUnion (setInsert l y) rest ↔ _
    rw [ih, setInsert_mem]
    simp only [List.mem_cons]
    tauto

theorem childHas_iff (ch : List (String × List String)) (p c : String) :
    childHas ch p c ↔ ∃ l, dlookup ch p = some l ∧ c ∈ l := by
  unfold childHas childrenOf
  cases dlookup ch p <;> simp

theorem dlookup_map_val (l : List (String × β)) (f : β → β) (q : String) :
    dlookup (l.map (fun e => (e.1, f e.2))) q = (dlookup l q).map f := by
  induction l with
  | nil => simp [dlookup]
  | cons e rest ih =>
    obtain ⟨k, v⟩ := e
    rcases eq_or_ne k q with h | h <;> simp [dlookup, h, ih]

theorem childUpdate_no_b (ch : List (String × List String)) (p : String)
    (bs : List String) (b q : String)
    (hch : ∀ l, dlookup ch q = some l → b ∉ l) (hbs : b ∉ bs) :
    ∀ l, dlookup (childUpdate ch p bs) q = some l → b ∉ l := by
  induction ch generalizing q with
  | nil =>
    intro l hl
    rcases eq_or_ne p q with h | h
    · simp [childUpdate, dlookup, h] at hl
      subst hl
      rw [setUnion_mem]
      simp [hbs]
    · simp [childUpdate, dlookup, h] at hl
  | cons e rest ih =>
    obtain ⟨k, v⟩ := e
    intro l hl
    rcases eq_or_ne k p with hkp | hkp
    · subst hkp
      rcases eq_or_ne k q with hkq | hkq
      · simp [childUpdate, dlookup, hkq] at hl
        subst hl
        rw [setUnion_mem]
        have : b ∉ v := hch v (by simp [dlookup, hkq])
        simp [this, hbs]
      · simp [childUpdate, dlookup, hkq] at hl
        exact hch l (by simp [dlookup, hkq, hl])
    · rcases eq_or_ne k q with hkq | hkq
      · subst hkq
        rw [show childUpdate ((k, v) :: rest) p bs = (k, v) :: childUpdate rest p bs
          from by simp [childUpdate, hkp]] at hl
        rw [show dlookup ((k, v) :: childUpdate rest p bs) k = some v
          from by simp [dlookup]] at hl
        injection hl with hl
        subst hl
        exact hch v (by simp [dlookup])
      · simp [childUpdate, hkp, dlookup, hkq] at hl
        exact ih q (fun l2 hl2 => hch l2 (by simp [dlookup, hkq, hl2])) l hl

/-- C1 core: the grafted state after a successful `_untrack_branch`. -/
def untrackResult (st : GSState) (branch : String) : GSState :=
  (untrack_branch st branch).getD st

/-- **C1.** Untracking a tracked branch `b` (with the derived children mapping
coherent, keys unique, and `b` not its own parent) removes `b` as a key,
removes `b` from every children set, and re-points every former child of `b`
at `b`'s former parent `p`. -/
theorem untrack_branch_grafts (st : GSState) (b p : String)
    (hkeys : KeysNodup st.gitstack) (hinv : InvOK st)
    (hb : dlookup st.gitstack b = some p) (hbp : b ≠ p) :
    (untrack_branch st b).isSome = true ∧
    dlookup (untrackResult st b).gitstack b = none ∧
    (∀ q, ¬ childHas (untrackResult st b).gitstack_children q b) ∧
    (∀ c, dlookup st.gitstack c = some b →
      dlookup (untrackResult st b).gitstack c = some p) := by
  have hbn : b ∉ childrenOf st.gitstack_children b := by
    intro hmem
    unfold childrenOf at hmem
    cases hlk : dlookup st.gitstack_children b with
    | none => rw [hlk] at hmem; simp at hmem
    | some l =>
      rw [hlk] at hmem
      simp at hmem
      have := hinv.2 (b, l) (dlookup_mem hlk) b hmem
      rw [hb] at this
      exact hbp (Option.some.injEq _ _ ▸ this).symm
  have hres : untrack_branch st b = some (track_branches
      { gitstack := dpop st.gitstack b,
        gitstack_children :=
          (dpop st.gitstack_children b).map
            (fun e => (e.1, e.2.filter (fun c => decide (c ≠ b)))),
        stack_changed := st.stack_changed }
      (childrenOf st.gitstack_children b) p) := by
    unfold untrack_branch
    rw [hb]
  refine ⟨by rw [hres]; rfl, ?_, ?_, ?_⟩
  · unfold untrackResult
    rw [hres]
    show dlookup ((childrenOf st.gitstack_children b).foldl
      (fun m br => dinsert m br p) (dpop st.gitstack b)) b = none
    rw [dlookup_foldl_dinsert]
    simp [hbn]
    exact dlookup_dpop_self _ _ hkeys
  · intro q
    have hgc : (untrackResult st b).gitstack_children =
        childUpdate ((dpop st.gitstack_children b).map
          (fun e => (e.1, e.2.filter (fun c => decide (c ≠ b))))) p
          (childrenOf st.gitstack_children b) := by
      unfold untrackResult
      rw [hres]
      rfl
    intro hq
    rw [hgc, childHas_iff] at hq
    obtain ⟨l, hl, hbl⟩ := hq
    refine childUpdate_no_b _ p _ b q ?_ hbn l hl hbl
    intro l2 hl2
    rw [dlookup_map_val] at hl2
    cases hl0 : dlookup (dpop st.gitstack_children b) q with
    | none => rw [hl0] at hl2; simp at hl2
    | some l0 =>
      rw [hl0] at hl2
      simp at hl2
      subst hl2
      intro hbmem
      have := List.of_mem_filter hbmem
      simp at this
  · intro c hc
    have hcs : c ∈ childrenOf st.gitstack_children b := hinv.1 (c, b) (dlookup_mem hc)
    unfold untrackResult
    rw [hres]
    show dlookup ((childrenOf st.gitstack_children b).foldl
      (fun m br => dinsert m br p) (dpop st.gitstack b)) c = some p
    rw [dlookup_foldl_dinsert]
    simp [hcs]

/-- C1 witness: a concrete three-branch registry where untracking the middle
branch grafts its child onto the trunk-side parent. -/
theorem untrack_branch_grafts_witness :
    (untrack_branch (initState [("b", "p"), ("c", "b")]) "b").isSome = true ∧
    dlookup (untrackResult (initState [("b", "p"), ("c", "b")]) "b").gitstack "b" = none ∧
    (∀ q, ¬ childHas (untrackResult (initState [("b", "p"), ("c", "b")]) "b").gitstack_children q "b") ∧
    (∀ c, dlookup (initState [("b", "p"), ("c", "b")]).gitstack c = some "b" →
      dlookup (untrackResult (initState [("b", "p"), ("c", "b")]) "b").gitstack c = some "p") :=
  untrack_branch_grafts (initState [("b", "p"), ("c", "b")]) "b" "p"
    (by decide) (by decide) (by decide) (by decide)

/-! ## C9: the children mapping after a re-track -/

/-- **C9 evaluation.** Re-tracking branch `b` from parent `p1` to parent `p2`
(`_track_branches` via `track_current_branch`) leaves the stale link
`b ∈ children(p1)` in place, so the derived children mapping is no longer the
inverse of the parent mapping. -/
theorem retrack_breaks_children_inverse :
    childHas (track_branches (initState [("b", "p1")]) ["b"] "p2").gitstack_children
      "p1" "b" ∧
    dlookup (track_branches (initState [("b", "p1")]) ["b"] "p2").gitstack "b"
      = some "p2" ∧
    ¬ InvOK (track_branches (initState [("b", "p1")]) ["b"] "p2") := by
  decide

/-! ## The synchronization decision procedure (`_check_and_rebase`) -/

/-- The JSON object `gh pr status` yields for the current branch: the `state`
field (absent key modelled as `none`) and the truthiness of `isDraft`. -/
structure PRInfo where
  state : Option String
  isDraft : Bool
deriving DecidableEq

/-- `pr_state.get("state")`: `none` both for an empty dict and a missing key. -/
def prStateGet (prState : Option PRInfo) : Option String :=
  match prState with
  | none => none
  | some i => i.state

/-- Truthiness of `pr_state.get("isDraft")`. -/
def prIsDraft (prState : Option PRInfo) : Bool :=
  match prState with
  | none => false
  | some i => i.isDraft

/-- The externally visible action `_check_and_rebase` decides on for one
branch. -/
inductive SyncAction where
  | skipTrunk
  | untrackGone
  | deleteAndUntrack
  | keepBranch
  | raiseUnhandled (state : Option String)
  | keyErrorAbort
  | upToDate
  | rebase (interactive : Bool)
  | mergeNoFF
deriving DecidableEq

/-- `GitStack._check_and_rebase`, with the subprocess results passed in:
`localBranches` is `git branch`, `prState` the `gh pr status` answer,
`parentSha` is `git show-ref --heads -s parent`, `baseSha` is
`git merge-base parent branch`, and the two responses are the interactive
answers.  Returns the updated registry state and the action taken. -/
def check_and_rebase (st : GSState) (trunk branch : String)
    (localBranches : List String) (prState : Option PRInfo)
    (parentSha baseSha : String) (deleteResponse rebaseResponse : String) :
    GSState × SyncAction :=
  if branch = trunk then (st, .skipTrunk)
  else if branch ∉ localBranches then
    match untrack_branch st branch with
    | some st2 => (st2, .untrackGone)
    | none => (st, .keyErrorAbort)
  else
    let stateOpt := prStateGet prState
    if stateOpt = some "MERGED" ∨ stateOpt = some "CLOSED" then
      -- the source raises UnhandledPRStateError in an else-branch that the
      -- enclosing guard makes unreachable; the dead arm is kept here
      if stateOpt ≠ some "MERGED" ∧ stateOpt ≠ some "CLOSED" then
        (st, .raiseUnhandled stateOpt)
      else if deleteResponse = "" ∨ deleteResponse = "Y" ∨ deleteResponse = "y" then
        match untrack_branch st branch with
        | some st2 => (st2, .deleteAndUntrack)
        | none => (st, .keyErrorAbort)
      else (st, .keepBranch)
    else
      match dlookup st.gitstack branch with
      | none => (st, .keyErrorAbort)
      | some _ =>
        if parentSha = baseSha then (st, .upToDate)
        else if prState = none ∨ prIsDraft prState = true then
          (st, .rebase (decide (rebaseResponse = "n" ∨ rebaseResponse = "N")))
        else (st, .mergeNoFF)

/-- **C2.** For a branch that exists locally, is tracked, is neither merged nor
closed, and whose parent tip differs from the merge-base, the engine rebases
iff the change request is absent or draft, merges otherwise, and never does
both. -/
theorem sync_rebase_iff_absent_or_draft (st : GSState) (trunk branch : String)
    (localBranches : List String) (prState : Option PRInfo)
    (parentSha baseSha deleteResponse rebaseResponse : String)
    (hbr : branch ≠ trunk) (hloc : branch ∈ localBranches)
    (hnm : prStateGet prState ≠ some "MERGED")
    (hnc : prStateGet prState ≠ some "CLOSED")
    (htracked : (dlookup st.gitstack branch).isSome = true)
    (hdiv : parentSha ≠ baseSha) :
    ((∃ i, (check_and_rebase st trunk branch localBranches prState parentSha
        baseSha deleteResponse rebaseResponse).2 = .rebase i) ↔
      (prState = none ∨ prIsDraft prState = true)) ∧
    ((check_and_rebase st trunk branch localBranches prState parentSha
        baseSha deleteResponse rebaseResponse).2 = .mergeNoFF ↔
      ¬(prState = none ∨ prIsDraft prState = true)) ∧
    ¬((∃ i, (check_and_rebase st trunk branch localBranches prState parentSha
        baseSha deleteResponse rebaseResponse).2 = .rebase i) ∧
      (check_and_rebase st trunk branch localBranches prState parentSha
        baseSha deleteResponse rebaseResponse).2 = .mergeNoFF) := by
  obtain ⟨parent, hd⟩ := Option.isSome_iff_exists.mp htracked
  have hmc : ¬(prStateGet prState = some "MERGED" ∨
      prStateGet prState = some "CLOSED") := by
    rintro (h | h) <;> [exact hnm h; exact hnc h]
  unfold check_and_rebase
  rw [if_neg hbr, if_neg (not_not_intro hloc)]
  simp only [if_neg hmc]
  rw [hd]
  simp only [if_neg hdiv]
  by_cases hdr : prState = none ∨ prIsDraft prState = true
  · rw [if_pos hdr]
    refine ⟨⟨fun _ => hdr, fun _ => ⟨_, rfl⟩⟩, ?_, ?_⟩
    · constructor
      · intro h; exact absurd h (by simp)
      · intro h; exact absurd hdr h
    · rintro ⟨-, h⟩; exact SyncAction.noConfusion h
  · rw [if_neg hdr]
    refine ⟨?_, ⟨fun _ => hdr, fun _ => rfl⟩, ?_⟩
    · constructor
      · rintro ⟨i, h⟩; exact SyncAction.noConfusion h
      · intro h; exact absurd h hdr
    · rintro ⟨⟨i, h⟩, -⟩; exact SyncAction.noConfusion h

/-- C2 witness: a tracked, diverged branch with no change request is rebased,
not merged. -/
theorem sync_rebase_iff_absent_or_draft_witness :
    ((∃ i, (check_and_rebase (initState [("b", "main")]) "main" "b"
        ["main", "b"] none "s1" "s2" "" "").2 = .rebase i) ↔
      ((none : Option PRInfo) = none ∨ prIsDraft none = true)) ∧
    ((check_and_rebase (initState [("b", "main")]) "main" "b"
        ["main", "b"] none "s1" "s2" "" "").2 = .mergeNoFF ↔
      ¬((none : Option PRInfo) = none ∨ prIsDraft none = true)) ∧
    ¬((∃ i, (check_and_rebase (initState [("b", "main")]) "main" "b"
        ["main", "b"] none "s1" "s2" "" "").2 = .rebase i) ∧
      (check_and_rebase (initState [("b", "main")]) "main" "b"
        ["main", "b"] none "s1" "s2" "" "").2 = .mergeNoFF) :=
  sync_rebase_iff_absent_or_draft (initState [("b", "main")]) "main" "b"
    ["main", "b"] none "s1" "s2" "" ""
    (by decide) (by decide) (by decide) (by decide) (by decide) (by decide)

/-- **C3.** For a branch whose change request is absent or open, when the
parent's tip equals the merge-base, the engine reports up to date, performs no
rebase and no merge, and leaves the registry state untouched. -/
theorem sync_up_to_date (st : GSState) (trunk branch : String)
    (localBranches : List String) (prState : Option PRInfo)
    (parentSha baseSha deleteResponse rebaseResponse : String)
    (hbr : branch ≠ trunk) (hloc : branch ∈ localBranches)
    (hopen : prState = none ∨ prStateGet prState = some "OPEN")
    (htracked : (dlookup st.gitstack branch).isSome = true)
    (heq : parentSha = baseSha) :
    check_and_rebase st trunk branch localBranches prState parentSha baseSha
      deleteResponse rebaseResponse = (st, .upToDate) := by
  obtain ⟨parent, hd⟩ := Option.isSome_iff_exists.mp htracked
  have hmc : ¬(prStateGet prState = some "MERGED" ∨
      prStateGet prState = some "CLOSED") := by
    rcases hopen with h | h
    · subst h; simp [prStateGet]
    · rw [h]; rintro (hc | hc) <;> simp at hc
  unfold check_and_rebase
  rw [if_neg hbr, if_neg (not_not_intro hloc)]
  simp only [if_neg hmc]
  rw [hd]
  simp only [if_pos heq]

/-- C3 witness: an open, already up-to-date branch is reported up to date and
the state is unchanged. -/
theorem sync_up_to_date_witness :
    check_and_rebase (initState [("b", "main")]) "main" "b" ["main", "b"]
      (some { state := some "OPEN", isDraft := false }) "s1" "s1" "" "" =
      (initState [("b", "main")], .upToDate) :=
  sync_up_to_date (initState [("b", "main")]) "main" "b" ["main", "b"]
    (some { state := some "OPEN", isDraft := false }) "s1" "s1" "" ""
    (by decide) (by decide) (by decide) (by decide) (by decide)

/-- **C5 evaluation.** An unrecognized present state (neither OPEN, MERGED nor
CLOSED) does not reach the `raise UnhandledPRStateError` arm: the guard around
it makes the arm dead, and the engine proceeds to a non-fast-forward merge. -/
theorem sync_unknown_state_proceeds :
    (check_and_rebase (initState [("b", "main")]) "main" "b" ["main", "b"]
      (some { state := some "UNKNOWN", isDraft := false }) "s1" "s2" "" "").2
      = SyncAction.mergeNoFF ∧
    ∀ s, (check_and_rebase (initState [("b", "main")]) "main" "b" ["main", "b"]
      (some { state := some "UNKNOWN", isDraft := false }) "s1" "s2" "" "").2
      ≠ SyncAction.raiseUnhandled s := by
  have h1 : (check_and_rebase (initState [("b", "main")]) "main" "b"
      ["main", "b"] (some { state := some "UNKNOWN", isDraft := false })
      "s1" "s2" "" "").2 = SyncAction.mergeNoFF := by decide
  refine ⟨h1, ?_⟩
  intro s h
  rw [h1] at h
  exact SyncAction.noConfusion h

/-! ## C7: registry persistence across one invocation -/

/-- The registry-affecting steps an invocation can take: a `_track_branches`
call, an `_untrack_branch` call, or a step that does not touch the registry. -/
inductive RegOp where
  | track (branches : List String) (parent : String)
  | untrack (branch : String)
  | readonly

/-- A step mutates the registry iff it is a track or an untrack. -/
def isMutating : RegOp → Bool
  | .readonly => false
  | _ => true

def applyRegOp (st : GSState) : RegOp → GSState
  | .track bs pq => track_branches st bs pq
  | .untrack b => (untrack_branch st b).getD st
  | .readonly => st

def runOps (st : GSState) (ops : List RegOp) : GSState :=
  ops.foldl applyRegOp st

/-- Every untrack in the sequence finds its branch tracked (otherwise the
source process dies with a `KeyError` and never reaches `wrapup`). -/
def untracksOK : GSState → List RegOp → Bool
  | _, [] => true
  | st, op :: rest =>
    (match op with
     | .untrack b => (untrack_branch st b).isSome
     | _ => true) && untracksOK (applyRegOp st op) rest

theorem applyRegOp_dirty (st : GSState) (op : RegOp)
    (hok : (match op with
      | .untrack b => (untrack_branch st b).isSome
      | _ => true) = true) :
    (applyRegOp st op).stack_changed = (st.stack_changed || isMutating op) := by
  cases op with
  | track bs pq => simp [applyRegOp, track_branches, isMutating]
  | readonly => simp [applyRegOp, isMutating]
  | untrack b =>
    have hok2 : (untrack_branch st b).isSome = true := hok
    simp only [applyRegOp, isMutating]
    cases hu : untrack_branch st b with
    | none => rw [hu] at hok2; simp at hok2
    | some st2 =>
      unfold untrack_branch at hu
      cases hl : dlookup st.gitstack b with
      | none => rw [hl] at hu; simp at hu
      | some pq =>
        rw [hl] at hu
        simp at hu
        simp [← hu, track_branches]

theorem runOps_dirty (ops : List RegOp) (st : GSState)
    (hok : untracksOK st ops = true) :
    (runOps st ops).stack_changed = (st.stack_changed || ops.any isMutating) := by
  induction ops generalizing st with
  | nil => simp [runOps]
  | cons op rest ih =>
    unfold untracksOK at hok
    rw [Bool.and_eq_true] at hok
    show (runOps (applyRegOp st op) rest).stack_changed = _
    rw [ih _ hok.2, applyRegOp_dirty st op hok.1]
    simp [Bool.or_assoc]

/-- **C7.** Starting from the freshly loaded state, `wrapup` writes the
registry file (exactly once, as its single optional write) iff some track or
untrack occurred during the invocation. -/
theorem wrapup_writes_iff_mutated (st0 : GSState) (ops : List RegOp)
    (hclean : st0.stack_changed = false)
    (hok : untracksOK st0 ops = true) :
    (wrapup (runOps st0 ops)).isSome = true ↔ ∃ op ∈ ops, isMutating op = true := by
  unfold wrapup
  rw [runOps_dirty ops st0 hok, hclean]
  simp [List.any_eq_true]

/-- C7 witness: one track makes the file be written; with only registry-neutral
steps it is not. -/
theorem wrapup_writes_iff_mutated_witness :
    ((wrapup (runOps (initState []) [RegOp.track ["a"] "main"])).isSome = true ↔
      ∃ op ∈ [RegOp.track ["a"] "main"], isMutating op = true) ∧
    ((wrapup (runOps (initState []) [RegOp.readonly])).isSome = true ↔
      ∃ op ∈ [RegOp.readonly], isMutating op = true) :=
  ⟨wrapup_writes_iff_mutated (initState []) [RegOp.track ["a"] "main"]
      (by decide) (by decide),
    wrapup_writes_iff_mutated (initState []) [RegOp.readonly]
      (by decide) (by decide)⟩

/-! ## C6: the command dispatcher (`GitStack.operate`) -/

/-- The operation each dispatcher branch delegates to. -/
inductive OpCmd where
  | createBranch (branch parent : String)
  | printStack
  | switchParent
  | switchChild
  | trackCurrent (parent : String)
  | createPRs
  | sync
deriving DecidableEq

/-- What one invocation of `operate` does: die on a failed `assert` (the
process exits non-zero before any action), run one operation, or fall off the
`if/elif` chain without an `else` and do nothing at all. -/
inductive OperateResult where
  | assertFail
  | run (c : OpCmd)
  | noop
deriving DecidableEq

/-- `GitStack.operate`, with the trunk and the branch current at process start
passed in. -/
def operate (trunk originalBranch : String) (operation : String)
    (args : List String) : OperateResult :=
  if operation = "b" ∨ operation = "branch" then
    match args with
    | [branch] => .run (.createBranch branch trunk)
    | [branch, p2] =>
      .run (.createBranch branch (if p2 = "." then originalBranch else p2))
    | _ => .assertFail
  else if operation = "p" ∨ operation = "print" then
    match args with
    | [] => .run .printStack
    | _ => .assertFail
  else if operation = "d" ∨ operation = "down" then
    match args with
    | [] => .run .switchParent
    | _ => .assertFail
  else if operation = "u" ∨ operation = "up" then
    match args with
    | [] => .run .switchChild
    | _ => .assertFail
  else if operation = "t" ∨ operation = "track" then
    match args with
    | [pq] => .run (.trackCurrent pq)
    | _ => .assertFail
  else if operation = "pr" then
    match args with
    | [] => .run .createPRs
    | _ => .assertFail
  else if operation = "s" ∨ operation = "sync" then
    match args with
    | [] => .run .sync
    | _ => .assertFail
  else .noop

/-- The fixed operation vocabulary of the dispatcher. -/
def opVocab : List String :=
  ["b", "branch", "p", "print", "d", "down", "u", "up", "t", "track", "pr",
    "s", "sync"]

/-- The exact arity contract of each operation. -/
def arityOk (operation : String) (nargs : Nat) : Bool :=
  if operation = "b" ∨ operation = "branch" then
    decide (1 ≤ nargs ∧ nargs ≤ 2)
  else if operation = "t" ∨ operation = "track" then decide (nargs = 1)
  else decide (nargs = 0)

/-- **C6 counterexample.** An operation token outside the vocabulary is not a
reported error: the dispatcher silently does nothing and the process exits
zero. -/
theorem unknown_operation_silently_ignored :
    operate "main" "feat" "frobnicate" [] = .noop ∧
    OperateResult.noop ≠ .assertFail ∧
    (∀ c, OperateResult.noop ≠ .run c) := by
  refine ⟨by decide, by decide, ?_⟩
  intro c h
  exact OperateResult.noConfusion h

/-- **C6 amended.** A known operation with the wrong argument count fails its
`assert` before any operation runs, and the process exits non-zero; an
unknown operation token is silently ignored (no error, nothing runs). -/
theorem operate_usage_errors (trunk originalBranch operation : String)
    (args : List String) :
    (operation ∉ opVocab → operate trunk originalBranch operation args = .noop) ∧
    (operation ∈ opVocab → arityOk operation args.length = false →
      operate trunk originalBranch operation args = .assertFail) := by
  constructor
  · intro h
    simp only [opVocab, List.mem_cons, List.not_mem_nil, or_false] at h
    push_neg at h
    obtain ⟨h1, h2, h3, h4, h5, h6, h7, h8, h9, h10, h11, h12, h13⟩ := h
    unfold operate
    rw [if_neg (by tauto), if_neg (by tauto), if_neg (by tauto),
      if_neg (by tauto), if_neg (by tauto), if_neg h11, if_neg (by tauto)]
  · intro hv hbad
    simp only [opVocab, List.mem_cons, List.not_mem_nil, or_false] at hv
    rcases hv with rfl | rfl | rfl | rfl | rfl | rfl | rfl | rfl | rfl | rfl |
      rfl | rfl | rfl <;>
      match args with
      | [] => first | rfl | (exfalso; revert hbad; simp [arityOk])
      | [a1] => first | rfl | (exfalso; revert hbad; simp [arityOk])
      | [a1, a2] => first | rfl | (exfalso; revert hbad; simp [arityOk])
      | a1 :: a2 :: a3 :: rest =>
        first | rfl | (exfalso; revert hbad; simp [arityOk])

/-- C6 witness: an unknown token is ignored; `print` with an argument dies on
the arity assert. -/
theorem operate_usage_errors_witness :
    operate "main" "feat" "frobnicate" ["x"] = .noop ∧
    operate "main" "feat" "print" ["x"] = .assertFail :=
  ⟨(operate_usage_errors "main" "feat" "frobnicate" ["x"]).1 (by decide),
    (operate_usage_errors "main" "feat" "print" ["x"]).2 (by decide) (by decide)⟩

/-! ## C8: `switch_to_child` and the enumerated selection -/

/-- The outcome of `GitStack.switch_to_child`: refuse because untracked,
refuse because childless, issue a `git switch` to a child, or die on the
uncaught `IndexError` from `child_branches_list[child_branch_idx]`. -/
inductive SwitchChildResult where
  | notTracked
  | noChildren
  | switched (child : String)
  | indexError
deriving DecidableEq

/-- Python list indexing `l[idx]` for a possibly negative `idx`; `none` models
the `IndexError`. -/
def pyIndex (l : List String) (idx : Int) : Option String :=
  if 0 ≤ idx then l.get? idx.toNat
  else if 0 ≤ idx + l.length then l.get? (idx + l.length).toNat
  else none

/-- `GitStack.switch_to_child`, with the current branch and the operator's
numeric selection passed in (the selection is only consulted when there are at
least two children). -/
def switch_to_child (st : GSState) (trunk current : String) (choice : Int) :
    SwitchChildResult :=
  if current ≠ trunk ∧ dlookup st.gitstack current = none then .notTracked
  else
    let child_branches := childrenOf st.gitstack_children current
    if child_branches.length < 1 then .noChildren
    else if child_branches.length = 1 then
      match child_branches.head? with
      | some c => .switched c
      | none => .noChildren
    else
      match pyIndex child_branches choice with
      | some c => .switched c
      | none => .indexError

/-- **C8 counterexample.** On trunk with the three listed children
`c1, c2, c3`, the selection `-1` is outside `[0, 3)` yet no error is reported:
Python's negative indexing switches to the last-listed child. -/
theorem switch_to_child_negative_index :
    switch_to_child (initState [("c1", "main"), ("c2", "main"), ("c3", "main")])
      "main" "main" (-1) = SwitchChildResult.switched "c3" ∧
    SwitchChildResult.switched "c3" ≠ .indexError := by
  constructor
  · decide
  · intro h
    exact SwitchChildResult.noConfusion h

/-- **C8 amended.** With at least two children: a selection `k` with
`0 ≤ k < n` switches to the `k`-th listed child and `k ≥ n` dies on an
uncaught `IndexError` (no switch issued); a selection `-k` with `1 ≤ k ≤ n`
switches to the `(n-k)`-th listed child (Python negative indexing) and
`k > n` dies on the `IndexError`. -/
theorem switch_to_child_choice (st : GSState) (trunk current : String)
    (choice : Int)
    (htracked : ¬(current ≠ trunk ∧ dlookup st.gitstack current = none))
    (hn : 2 ≤ (childrenOf st.gitstack_children current).length) :
    (∀ k : Nat, choice = (k : Int) →
      switch_to_child st trunk current choice =
        (match (childrenOf st.gitstack_children current).get? k with
         | some c => .switched c
         | none => .indexError)) ∧
    (∀ k : Nat, choice = -(k : Int) → 1 ≤ k →
      switch_to_child st trunk current choice =
        (if k ≤ (childrenOf st.gitstack_children current).length then
          (match (childrenOf st.gitstack_children current).get?
              ((childrenOf st.gitstack_children current).length - k) with
           | some c => .switched c
           | none => .indexError)
         else .indexError)) := by
  have h1 : ¬((childrenOf st.gitstack_children current).length < 1) := by omega
  have h2 : ¬((childrenOf st.gitstack_children current).length = 1) := by omega
  constructor
  · intro k hk
    unfold switch_to_child
    rw [if_neg htracked]
    simp only [if_neg h1, if_neg h2]
    unfold pyIndex
    rw [hk]
    rw [if_pos (by positivity)]
    simp
  · intro k hk hk1
    unfold switch_to_child
    rw [if_neg htracked]
    simp only [if_neg h1, if_neg h2]
    unfold pyIndex
    rw [hk]
    rw [if_neg (by omega)]
    by_cases hkn : k ≤ (childrenOf st.gitstack_children current).length
    · rw [if_pos (by push_cast; omega), if_pos hkn]
      have : (-(k : Int) + (childrenOf st.gitstack_children current).length).toNat
          = (childrenOf st.gitstack_children current).length - k := by omega
      rw [this]
    · rw [if_neg (by push_cast; omega), if_neg hkn]

/-- C8 witness: selecting index 1 among the three listed children `c1, c2, c3`
switches to the second-listed child. -/
theorem switch_to_child_choice_witness :
    switch_to_child (initState [("c1", "main"), ("c2", "main"), ("c3", "main")])
      "main" "main" 1 = SwitchChildResult.switched "c2" := by
  have h := (switch_to_child_choice
    (initState [("c1", "main"), ("c2", "main"), ("c3", "main")])
    "main" "main" 1 (by decide) (by decide)).1 1 rfl
  rw [h]
  decide

/-! ## C4: the stack traversal (`_traverse_stack`) -/

/-- The loop state of `_traverse_stack`: the visited set (most recent first),
the pending stack (`tracking_stack`, top first), and the visit log in call
order with depths. -/
structure TravState where
  visited : List String
  stack : List (String × Nat)
  out : List (String × Nat)
deriving DecidableEq

/-- One iteration of the `while tracking_stack` loop: pop; skip if visited;
otherwise visit, mark, and push the not-yet-visited children (Python appends
them in order and pops from the end, so they sit on top in reverse order).
`none` when the stack is empty and the loop exits. -/
def travStep (ch : List (String × List String)) (s : TravState) :
    Option TravState :=
  match s.stack with
  | [] => none
  | (b, d) :: rest =>
    if b ∈ s.visited then some { s with stack := rest }
    else
      some { visited := b :: s.visited,
             stack := (((childrenOf ch b).filter
               (fun c => decide (c ∉ b :: s.visited))).reverse.map
               (fun c => (c, d + 1))) ++ rest,
             out := s.out ++ [(b, d)] }

/-- Run the loop for at most `fuel` iterations. -/
def travRun (ch : List (String × List String)) : Nat → TravState → TravState
  | 0, s => s
  | fuel + 1, s =>
    match travStep ch s with
    | none => s
    | some s2 => travRun ch fuel s2

/-- The loop state on entry: `visited = set()`, `tracking_stack = [(trunk, 0)]`. -/
def travInit (trunk : String) : TravState :=
  { visited := [], stack := [(trunk, 0)], out := [] }

/-- Total length of the child lists whose key is not yet visited. -/
def pendingWeight (ch : List (String × List String)) (visited : List String) :
    Nat :=
  ((ch.filter (fun e => decide (e.1 ∉ visited))).map (fun e => e.2.length)).sum

/-- Loop variant: pending stack entries plus unvisited child-list weight. -/
def phi (ch : List (String × List String)) (s : TravState) : Nat :=
  s.stack.length + pendingWeight ch s.visited

/-- Enough fuel to drain the loop from the initial state. -/
def travFuel (ch : List (String × List String)) : Nat :=
  1 + ((ch.map (fun e => e.2.length)).sum)

/-- The visit log `_traverse_stack` produces (branch, depth pairs in the order
`fn` is called). -/
def traverse (ch : List (String × List String)) (trunk : String) :
    List (String × Nat) :=
  (travRun ch (travFuel ch) (travInit trunk)).out

/-- Reachability from the trunk through the children mapping. -/
inductive Reaches (ch : List (String × List String)) (trunk : String) :
    String → Prop
  | refl : Reaches ch trunk trunk
  | step {b c : String} : Reaches ch trunk b → c ∈ childrenOf ch b →
      Reaches ch trunk c

/-- `u` is an ancestor of `x`: a nonempty chain of child links leads from `u`
to `x`. -/
inductive Ancestor (ch : List (String × List String)) : String → String → Prop
  | child {u c : String} : c ∈ childrenOf ch u → Ancestor ch u c
  | trans {u v c : String} : Ancestor ch u v → c ∈ childrenOf ch v →
      Ancestor ch u c

/-- Every log entry is either the initial trunk visit at depth 0 or sits one
level below some strictly earlier log entry that lists it as a child. -/
def VisitOrdered (ch : List (String × List String)) (trunk : String)
    (out : List (String × Nat)) : Prop :=
  ∀ i x dx, out.get? i = some (x, dx) →
    (x = trunk ∧ dx = 0) ∨
    ∃ j y dy, j < i ∧ out.get? j = some (y, dy) ∧
      x ∈ childrenOf ch y ∧ dx = dy + 1

theorem pendingWeight_mono (ch : List (String × List String))
    (v1 v2 : List String) (hsub : ∀ x ∈ v1, x ∈ v2) :
    pendingWeight ch v2 ≤ pendingWeight ch v1 := by
  induction ch with
  | nil => simp [pendingWeight]
  | cons e rest ih =>
    unfold pendingWeight at ih ⊢
    rw [List.filter_cons, List.filter_cons]
    by_cases h2 : e.1 ∈ v2
    · rw [show (decide (e.1 ∉ v2)) = false from by simp [h2]]
      by_cases h1 : e.1 ∈ v1
      · rw [show (decide (e.1 ∉ v1)) = false from by simp [h1]]
        simpa using ih
      · rw [show (decide (e.1 ∉ v1)) = true from by simp [h1]]
        simp only [if_true, if_false, Bool.false_eq_true, List.map_cons,
          List.sum_cons]
        omega
    · have h1 : e.1 ∉ v1 := fun hc => h2 (hsub _ hc)
      rw [show (decide (e.1 ∉ v1)) = true from by simp [h1],
        show (decide (e.1 ∉ v2)) = true from by simp [h2]]
      simp only [if_true, List.map_cons, List.sum_cons]
      omega

theorem pendingWeight_cons (ch : List (String × List String)) (b : String)
    (v : List String) (hb : b ∉ v) :
    pendingWeight ch (b :: v) + (childrenOf ch b).length ≤
      pendingWeight ch v := by
  induction ch with
  | nil => simp [pendingWeight, childrenOf, dlookup]
  | cons e rest ih =>
    obtain ⟨k, cs⟩ := e
    rcases eq_or_ne k b with rfl | hkb
    · have hch : childrenOf ((k, cs) :: rest) k = cs := by
        simp [childrenOf, dlookup]
      rw [hch]
      have h1 : pendingWeight ((k, cs) :: rest) (k :: v) =
          pendingWeight rest (k :: v) := by
        unfold pendingWeight
        rw [List.filter_cons,
          show (decide ((k, cs).1 ∉ k :: v)) = false from by simp]
        simp
      have h2 : pendingWeight ((k, cs) :: rest) v =
          cs.length + pendingWeight rest v := by
        unfold pendingWeight
        rw [List.filter_cons,
          show (decide ((k, cs).1 ∉ v)) = true from by simp [hb]]
        simp
      rw [h1, h2]
      have := pendingWeight_mono rest v (k :: v)
        (fun x hx => List.mem_cons_of_mem _ hx)
      omega
    · have hch : childrenOf ((k, cs) :: rest) b = childrenOf rest b := by
        simp [childrenOf, dlookup, hkb]
      rw [hch]
      by_cases hkv : k ∈ v
      · have hkv2 : k ∈ b :: v := List.mem_cons_of_mem _ hkv
        have h1 : pendingWeight ((k, cs) :: rest) (b :: v) =
            pendingWeight rest (b :: v) := by
          unfold pendingWeight
          rw [List.filter_cons,
            show (decide ((k, cs).1 ∉ b :: v)) = false from by simp [hkv2]]
          simp
        have h2 : pendingWeight ((k, cs) :: rest) v =
            pendingWeight rest v := by
          unfold pendingWeight
          rw [List.filter_cons,
            show (decide ((k, cs).1 ∉ v)) = false from by simp [hkv]]
          simp
        rw [h1, h2]
        exact ih
      · have hkv2 : k ∉ b :: v := by
          simp [hkb, hkv]
        have h1 : pendingWeight ((k, cs) :: rest) (b :: v) =
            cs.length + pendingWeight rest (b :: v) := by
          unfold pendingWeight
          rw [List.filter_cons,
            show (decide ((k, cs).1 ∉ b :: v)) = true from by simp [hkv2]]
          simp
        have h2 : pendingWeight ((k, cs) :: rest) v =
            cs.length + pendingWeight rest v := by
          unfold pendingWeight
          rw [List.filter_cons,
            show (decide ((k, cs).1 ∉ v)) = true from by simp [hkv]]
          simp
        rw [h1, h2]
        omega

theorem travStep_none_iff (ch : List (String × List String)) (s : TravState) :
    travStep ch s = none ↔ s.stack = [] := by
  constructor
  · intro h
    cases hs : s.stack with
    | nil => rfl
    | cons e rest =>
      obtain ⟨b, d⟩ := e
      unfold travStep at h
      rw [hs] at h
      by_cases hb : b ∈ s.visited <;> simp [hb] at h
  · intro h
    unfold travStep
    rw [h]

theorem phi_decrease (ch : List (String × List String)) (s s2 : TravState)
    (hstep : travStep ch s = some s2) : phi ch s2 < phi ch s := by
  cases hs : s.stack with
  | nil => rw [(travStep_none_iff ch s).mpr hs] at hstep; exact absurd hstep (by simp)
  | cons e rest =>
    obtain ⟨b, d⟩ := e
    have hstep2 : travStep ch s =
        (if b ∈ s.visited then some { s with stack := rest }
         else some { visited := b :: s.visited,
                     stack := (((childrenOf ch b).filter
                       (fun c => decide (c ∉ b :: s.visited))).reverse.map
                       (fun c => (c, d + 1))) ++ rest,
                     out := s.out ++ [(b, d)] }) := by
      unfold travStep
      rw [hs]
    rw [hstep2] at hstep
    by_cases hb : b ∈ s.visited
    · rw [if_pos hb] at hstep
      injection hstep with hstep
      subst hstep
      unfold phi
      rw [hs]
      simp
    · rw [if_neg hb] at hstep
      injection hstep with hstep
      subst hstep
      unfold phi
      rw [hs]
      simp only [List.length_append, List.length_map, List.length_reverse]
      have hfil : ((childrenOf ch b).filter
          (fun c => decide (c ∉ b :: s.visited))).length ≤
          (childrenOf ch b).length := List.length_filter_le _ _
      have hpw := pendingWeight_cons ch b s.visited hb
      simp only [List.length_cons]
      omega

theorem travRun_drains (ch : List (String × List String)) (n : Nat) :
    ∀ s : TravState, phi ch s ≤ n → (travRun ch n s).stack = [] := by
  induction n with
  | zero =>
    intro s h
    unfold phi at h
    have : s.stack.length = 0 := by omega
    unfold travRun
    exact List.length_eq_zero.mp this
  | succ n ih =>
    intro s h
    cases hstep : travStep ch s with
    | none =>
      unfold travRun
      rw [hstep]
      exact (travStep_none_iff ch s).mp hstep
    | some s2 =>
      unfold travRun
      rw [hstep]
      exact ih s2 (by have := phi_decrease ch s s2 hstep; omega)

theorem travRun_stable (ch : List (String × List String)) (n : Nat)
    (s : TravState) (h : s.stack = []) : travRun ch n s = s := by
  cases n with
  | zero => rfl
  | succ n =>
    unfold travRun
    rw [(travStep_none_iff ch s).mpr h]

theorem travRun_succ (ch : List (String × List String)) (n : Nat)
    (s : TravState) :
    travRun ch (n + 1) s =
      (match travStep ch s with
       | none => s
       | some s2 => travRun ch n s2) := rfl

theorem travRun_add (ch : List (String × List String)) (a b : Nat)
    (s : TravState) :
    travRun ch (a + b) s = travRun ch b (travRun ch a s) := by
  induction a generalizing s with
  | zero => simp [travRun]
  | succ a ih =>
    rw [show a + 1 + b = (a + b) + 1 from by omega]
    cases hstep : travStep ch s with
    | none =>
      have hnil : s.stack = [] := (travStep_none_iff ch s).mp hstep
      rw [travRun_stable ch (a + b + 1) s hnil,
        travRun_stable ch (a + 1) s hnil, travRun_stable ch b s hnil]
    | some s2 =>
      rw [travRun_succ ch (a + b) s, travRun_succ ch a s, hstep]
      exact ih s2

theorem phi_init (ch : List (String × List String)) (trunk : String) :
    phi ch (travInit trunk) = travFuel ch := by
  unfold phi travInit travFuel pendingWeight
  simp

/-- The loop invariant of `_traverse_stack`. -/
structure TravInv (ch : List (String × List String)) (trunk : String)
    (s : TravState) : Prop where
  visited_eq : s.visited = (s.out.map Prod.fst).reverse
  nodup : s.visited.Nodup
  reach_visited : ∀ x ∈ s.visited, Reaches ch trunk x
  reach_stack : ∀ e ∈ s.stack, Reaches ch trunk e.1
  closure : ∀ b ∈ s.visited, ∀ c ∈ childrenOf ch b,
    c ∈ s.visited ∨ c ∈ s.stack.map Prod.fst
  trunk_in : trunk ∈ s.visited ∨ trunk ∈ s.stack.map Prod.fst
  ordered : VisitOrdered ch trunk s.out
  stack_prov : ∀ e ∈ s.stack, (e.1 = trunk ∧ e.2 = 0) ∨
    ∃ pe ∈ s.out, e.1 ∈ childrenOf ch pe.1 ∧ e.2 = pe.2 + 1

theorem travInit_inv (ch : List (String × List String)) (trunk : String) :
    TravInv ch trunk (travInit trunk) where
  visited_eq := rfl
  nodup := List.nodup_nil
  reach_visited := by intro x hx; simp [travInit] at hx
  reach_stack := by
    intro e he
    simp [travInit] at he
    rw [he]
    exact Reaches.refl
  closure := by intro b hb; simp [travInit] at hb
  trunk_in := by right; simp [travInit]
  ordered := by intro i x dx h; simp [travInit] at h
  stack_prov := by
    intro e he
    simp [travInit] at he
    left
    rw [he]
    exact ⟨rfl, rfl⟩

theorem travStep_inv (ch : List (String × List String)) (trunk : String)
    (s s2 : TravState) (hstep : travStep ch s = some s2)
    (hinv : TravInv ch trunk s) : TravInv ch trunk s2 := by
  cases hs : s.stack with
  | nil =>
    rw [(travStep_none_iff ch s).mpr hs] at hstep
    exact absurd hstep (by simp)
  | cons e rest =>
    obtain ⟨b, d⟩ := e
    have hbstack : (b, d) ∈ s.stack := by rw [hs]; exact List.mem_cons_self _ _
    have hstep2 : travStep ch s =
        (if b ∈ s.visited then some { s with stack := rest }
         else some { visited := b :: s.visited,
                     stack := (((childrenOf ch b).filter
                       (fun c => decide (c ∉ b :: s.visited))).reverse.map
                       (fun c => (c, d + 1))) ++ rest,
                     out := s.out ++ [(b, d)] }) := by
      unfold travStep
      rw [hs]
    rw [hstep2] at hstep
    by_cases hb : b ∈ s.visited
    · rw [if_pos hb] at hstep
      injection hstep with hstep
      subst hstep
      refine ⟨hinv.visited_eq, hinv.nodup, hinv.reach_visited, ?_, ?_, ?_,
        hinv.ordered, ?_⟩
      · intro e he
        exact hinv.reach_stack e (by rw [hs]; exact List.mem_cons_of_mem _ he)
      · intro b2 hb2 c hc
        rcases hinv.closure b2 hb2 c hc with h | h
        · exact Or.inl h
        · rw [hs] at h
          rcases List.mem_cons.mp h with rfl | h2
          · exact Or.inl hb
          · exact Or.inr h2
      · rcases hinv.trunk_in with h | h
        · exact Or.inl h
        · rw [hs] at h
          rcases List.mem_cons.mp h with rfl | h2
          · exact Or.inl hb
          · exact Or.inr h2
      · intro e he
        exact hinv.stack_prov e (by rw [hs]; exact List.mem_cons_of_mem _ he)
    · rw [if_neg hb] at hstep
      injection hstep with hstep
      subst hstep
      have hreachb : Reaches ch trunk b := hinv.reach_stack (b, d) hbstack
      refine ⟨?_, ?_, ?_, ?_, ?_, ?_, ?_, ?_⟩
      · show b :: s.visited = ((s.out ++ [(b, d)]).map Prod.fst).reverse
        rw [List.map_append, List.reverse_append]
        simp [hinv.visited_eq]
      · exact List.nodup_cons.mpr ⟨hb, hinv.nodup⟩
      · intro x hx
        rcases List.mem_cons.mp hx with rfl | hx2
        · exact hreachb
        · exact hinv.reach_visited x hx2
      · intro e he
        rcases List.mem_append.mp he with h | h
        · obtain ⟨c, hc, he2⟩ := List.mem_map.mp h
          rw [← he2]
          exact Reaches.step hreachb
            (List.mem_of_mem_filter (List.mem_reverse.mp hc))
        · exact hinv.reach_stack e (by rw [hs]; exact List.mem_cons_of_mem _ h)
      · intro b2 hb2 c hc
        rcases List.mem_cons.mp hb2 with rfl | hb2v
        · by_cases hcv : c ∈ b2 :: s.visited
          · exact Or.inl hcv
          · right
            have hcf : c ∈ (childrenOf ch b2).filter
                (fun c2 => decide (c2 ∉ b2 :: s.visited)) :=
              List.mem_filter.mpr ⟨hc, by simpa using hcv⟩
            refine List.mem_map.mpr ⟨(c, d + 1), ?_, rfl⟩
            exact List.mem_append_left _
              (List.mem_map.mpr ⟨c, List.mem_reverse.mpr hcf, rfl⟩)
        · rcases hinv.closure b2 hb2v c hc with h | h
          · exact Or.inl (List.mem_cons_of_mem _ h)
          · rw [hs] at h
            rcases List.mem_map.mp h with ⟨e2, he2, hfst⟩
            rcases List.mem_cons.mp he2 with rfl | he3
            · exact Or.inl (by rw [← hfst]; exact List.mem_cons_self _ _)
            · right
              refine List.mem_map.mpr ⟨e2, List.mem_append_right _ he3, hfst⟩
      · rcases hinv.trunk_in with h | h
        · exact Or.inl (List.mem_cons_of_mem _ h)
        · rw [hs] at h
          rcases List.mem_map.mp h with ⟨e2, he2, hfst⟩
          rcases List.mem_cons.mp he2 with rfl | he3
          · exact Or.inl (by rw [← hfst]; exact List.mem_cons_self _ _)
          · right
            refine List.mem_map.mpr ⟨e2, List.mem_append_right _ he3, hfst⟩
      · intro i x dx hix
        by_cases hi : i < s.out.length
        · rw [List.get?_append hi] at hix
          rcases hinv.ordered i x dx hix with h | ⟨j, y, dy, hj, hjy, hcm, hd2⟩
          · exact Or.inl h
          · have hjlt : j < s.out.length := by
              rcases List.get?_eq_some.mp hjy with ⟨hlt, -⟩
              exact hlt
            refine Or.inr ⟨j, y, dy, hj, ?_, hcm, hd2⟩
            rw [List.get?_append hjlt]
            exact hjy
        · have hilt : i < s.out.length + 1 := by
            rcases List.get?_eq_some.mp hix with ⟨hlt, -⟩
            simpa using hlt
          have hiL : i = s.out.length := by omega
          subst hiL
          rw [List.get?_concat_length] at hix
          injection hix with hix
          have hxb : x = b := (congrArg Prod.fst hix).symm
          have hdd : dx = d := (congrArg Prod.snd hix).symm
          rcases hinv.stack_prov (b, d) hbstack with ⟨hbt, hd0⟩ |
            ⟨pe, hpe, hcm, hdp⟩
          · exact Or.inl ⟨hxb.trans hbt, hdd.trans hd0⟩
          · right
            obtain ⟨j, hj⟩ := List.mem_iff_get?.mp hpe
            have hjlt : j < s.out.length := by
              rcases List.get?_eq_some.mp hj with ⟨hlt, -⟩
              exact hlt
            refine ⟨j, pe.1, pe.2, hjlt, ?_, by rw [hxb]; exact hcm,
              hdd.trans hdp⟩
            rw [List.get?_append hjlt, hj]
      · intro e he
        rcases List.mem_append.mp he with h | h
        · obtain ⟨c, hc, he2⟩ := List.mem_map.mp h
          right
          refine ⟨(b, d), List.mem_append_right _ (List.mem_singleton.mpr rfl),
            ?_, ?_⟩
          · rw [← he2]
            exact List.mem_of_mem_filter (List.mem_reverse.mp hc)
          · rw [← he2]
        · rcases hinv.stack_prov e
            (by rw [hs]; exact List.mem_cons_of_mem _ h) with h2 | ⟨pe, hpe, hcm, hdp⟩
          · exact Or.inl h2
          · exact Or.inr ⟨pe, List.mem_append_left _ hpe, hcm, hdp⟩

theorem travRun_inv (ch : List (String × List String)) (trunk : String)
    (n : Nat) : ∀ s : TravState, TravInv ch trunk s →
    TravInv ch trunk (travRun ch n s) := by
  induction n with
  | zero => intro s hinv; exact hinv
  | succ n ih =>
    intro s hinv
    cases hstep : travStep ch s with
    | none =>
      rw [travRun_succ, hstep]
      exact hinv
    | some s2 =>
      rw [travRun_succ, hstep]
      exact ih s2 (travStep_inv ch trunk s s2 hstep hinv)

/-- **C4 amended.** For every children mapping and trunk: the traversal
terminates (the fuelled loop is stable at `travFuel`), calls the visit
function exactly once on each branch reachable from the trunk (no branch is
visited twice, even on cyclic or multiply-linked mappings), and each log entry
other than the initial trunk visit is one level below a strictly earlier
entry that lists it as a child — so along the traversal tree, ancestors are
visited first and at strictly smaller depths. -/
theorem traverse_correct (ch : List (String × List String)) (trunk : String) :
    ((traverse ch trunk).map Prod.fst).Nodup ∧
    (∀ x, x ∈ (traverse ch trunk).map Prod.fst ↔ Reaches ch trunk x) ∧
    VisitOrdered ch trunk (traverse ch trunk) ∧
    (∀ extra : Nat, travRun ch (travFuel ch + extra) (travInit trunk) =
      travRun ch (travFuel ch) (travInit trunk)) := by
  have hfin : TravInv ch trunk (travRun ch (travFuel ch) (travInit trunk)) :=
    travRun_inv ch trunk (travFuel ch) (travInit trunk) (travInit_inv ch trunk)
  have hstack : (travRun ch (travFuel ch) (travInit trunk)).stack = [] :=
    travRun_drains ch (travFuel ch) (travInit trunk)
      (le_of_eq (phi_init ch trunk))
  have hvis : ∀ x, x ∈ (traverse ch trunk).map Prod.fst ↔
      x ∈ (travRun ch (travFuel ch) (travInit trunk)).visited := by
    intro x
    rw [hfin.visited_eq]
    unfold traverse
    exact (List.mem_reverse).symm
  refine ⟨?_, ?_, ?_, ?_⟩
  · have := hfin.nodup
    rw [hfin.visited_eq] at this
    unfold traverse
    exact List.nodup_reverse.mp this
  · intro x
    rw [hvis x]
    constructor
    · exact hfin.reach_visited x
    · intro hx
      induction hx with
      | refl =>
        rcases hfin.trunk_in with h | h
        · exact h
        · rw [hstack] at h
          simp at h
      | step hb hc ih2 =>
        rcases hfin.closure _ ih2 _ hc with h | h
        · exact h
        · rw [hstack] at h
          simp at h
  · exact hfin.ordered
  · intro extra
    rw [travRun_add]
    exact travRun_stable ch extra _ hstack

/-- The children mapping of the **C4 counterexample**: reachable from
`trunk`, with `x` linked both directly under `trunk` and under `w` — the
multiply-linked shape the claim explicitly includes; it arises in practice
when `x` is re-tracked from parent `w` to parent `trunk`, since the stale
`x ∈ children(w)` link survives a re-track. -/
def cmC4 : List (String × List String) :=
  [("trunk", ["a", "x"]), ("a", ["w"]), ("w", ["x"])]

/-- **C4 counterexample.** On `cmC4` the traversal visits `x` at depth 1 while
its ancestor `w` (which lists `x` as a child) is visited at depth 2: a branch
is visited at a depth smaller than the depth at which one of its ancestors was
visited. -/
theorem traverse_depth_anomaly :
    traverse cmC4 "trunk" = [("trunk", 0), ("x", 1), ("a", 1), ("w", 2)] ∧
    Ancestor cmC4 "w" "x" ∧
    ("x", 1) ∈ traverse cmC4 "trunk" ∧ ("w", 2) ∈ traverse cmC4 "trunk" ∧
    (1 : Nat) < 2 :=
  ⟨by decide, Ancestor.child (by decide), by decide, by decide, by decide⟩

/-! ## C10: `create_prs` walks the chain from the current branch to trunk -/

/-- Follow parent pointers `n` hops from `b`; `none` when a hop is untracked. -/
def iterParent (m : List (String × String)) : Nat → String → Option String
  | 0, b => some b
  | n + 1, b =>
    match dlookup m b with
    | some pq => iterParent m n pq
    | none => none

/-- The first `n` branches of the parent chain starting at `b`. -/
def chainList (m : List (String × String)) : Nat → String → List String
  | 0, _ => []
  | n + 1, b =>
    b :: (match dlookup m b with
          | some pq => chainList m n pq
          | none => [])

/-- The `while branch != self.trunk` loop of `GitStack.create_prs`, fuelled;
`none` models nontermination or the `KeyError` on an untracked branch, `some`
returns, oldest first, each visited branch paired with whether a change
request was created for it (`git push` happens for every visited branch;
`gh pr create` only when `hasPR` is false). -/
def create_prs_loop (m : List (String × String)) (trunk : String)
    (hasPR : String → Bool) : Nat → String → List (String × Bool) →
    Option (List (String × Bool))
  | 0, _, _ => none
  | fuel + 1, branch, acc =>
    if branch = trunk then some acc.reverse
    else
      match dlookup m branch with
      | none =>
        if hasPR branch then
          -- switch_to_parent refuses to move off an untracked branch, so the
          -- loop spins on the same branch forever
          create_prs_loop m trunk hasPR fuel branch ((branch, false) :: acc)
        else none
      | some parent =>
        create_prs_loop m trunk hasPR fuel parent
          ((branch, !hasPR branch) :: acc)

/-- `GitStack.create_prs`: run the loop from the original branch, then switch
back to the original branch (the second component is the branch checked out at
the end). -/
def create_prs (m : List (String × String)) (trunk original : String)
    (hasPR : String → Bool) (fuel : Nat) :
    Option (List (String × Bool) × String) :=
  (create_prs_loop m trunk hasPR fuel original []).map (fun l => (l, original))

theorem iterParent_succ_some (m : List (String × String)) (n : Nat)
    (b pq : String) (hd : dlookup m b = some pq) :
    iterParent m (n + 1) b = iterParent m n pq := by
  rw [show iterParent m (n + 1) b =
    (match dlookup m b with
     | some p2 => iterParent m n p2
     | none => none) from rfl, hd]

theorem iterParent_succ_none (m : List (String × String)) (n : Nat)
    (b : String) (hd : dlookup m b = none) :
    iterParent m (n + 1) b = none := by
  rw [show iterParent m (n + 1) b =
    (match dlookup m b with
     | some p2 => iterParent m n p2
     | none => none) from rfl, hd]

theorem iterParent_add (m : List (String × String)) (a b : Nat) (x : String) :
    iterParent m (a + b) x = (iterParent m a x).bind (iterParent m b) := by
  induction a generalizing x with
  | zero => simp [iterParent]
  | succ a ih =>
    rw [show a + 1 + b = (a + b) + 1 from by omega]
    cases hd : dlookup m x with
    | none =>
      rw [iterParent_succ_none m (a + b) x hd, iterParent_succ_none m a x hd]
      rfl
    | some pq =>
      rw [iterParent_succ_some m (a + b) x pq hd,
        iterParent_succ_some m a x pq hd]
      exact ih pq

theorem iterParent_mul_self (m : List (String × String)) (c : Nat) (b : String)
    (hc : iterParent m c b = some b) (q : Nat) :
    iterParent m (c * q) b = some b := by
  induction q with
  | zero => simp [iterParent]
  | succ q ih =>
    rw [show c * (q + 1) = c * q + c from by ring, iterParent_add, ih]
    simpa using hc

theorem chainList_mem (m : List (String × String)) (n : Nat) (b x : String)
    (hx : x ∈ chainList m n b) : ∃ k < n, iterParent m k b = some x := by
  induction n generalizing b with
  | zero => simp [chainList] at hx
  | succ n ih =>
    unfold chainList at hx
    rcases List.mem_cons.mp hx with rfl | hx2
    · exact ⟨0, by omega, rfl⟩
    · cases hd : dlookup m b with
      | none => rw [hd] at hx2; simp at hx2
      | some pq =>
        rw [hd] at hx2
        obtain ⟨k, hk, hit⟩ := ih pq hx2
        refine ⟨k + 1, by omega, ?_⟩
        unfold iterParent
        rw [hd]
        exact hit

theorem chainList_nodup (m : List (String × String)) (n : Nat) (b trunk : String)
    (hreach : iterParent m n b = some trunk)
    (hmin : ∀ k < n, iterParent m k b ≠ some trunk) :
    (chainList m n b).Nodup := by
  induction n generalizing b with
  | zero => simp [chainList]
  | succ n ih =>
    cases hd : dlookup m b with
    | none =>
      unfold iterParent at hreach
      rw [hd] at hreach
      exact absurd hreach (by simp)
    | some pq =>
      unfold chainList
      rw [hd]
      rw [List.nodup_cons]
      have hreach2 : iterParent m n pq = some trunk := by
        unfold iterParent at hreach
        rw [hd] at hreach
        exact hreach
      have hmin2 : ∀ k < n, iterParent m k pq ≠ some trunk := by
        intro k hk hc
        refine hmin (k + 1) (by omega) ?_
        unfold iterParent
        rw [hd]
        exact hc
      refine ⟨?_, ih pq hreach2 hmin2⟩
      intro hmem
      obtain ⟨k, hk, hit⟩ := chainList_mem m n pq b hmem
      have hcyc : iterParent m (k + 1) b = some b := by
        unfold iterParent
        rw [hd]
        exact hit
      set c := k + 1 with hcdef
      have hc1 : 1 ≤ c := by omega
      have hcn : c ≤ n := by omega
      have hmod : (n + 1) % c < c := Nat.mod_lt _ (by omega)
      have hsplit : c * ((n + 1) / c) + (n + 1) % c = n + 1 :=
        Nat.div_add_mod _ _
      have hiter : iterParent m (c * ((n + 1) / c) + (n + 1) % c) b =
          iterParent m ((n + 1) % c) b := by
        rw [iterParent_add, iterParent_mul_self m c b hcyc]
        simp
      rw [hsplit] at hiter
      rw [hiter] at hreach
      exact hmin ((n + 1) % c) (by omega) hreach

theorem chainList_length (m : List (String × String)) (n : Nat)
    (b trunk : String) (hreach : iterParent m n b = some trunk) :
    (chainList m n b).length = n := by
  induction n generalizing b with
  | zero => simp [chainList]
  | succ n ih =>
    cases hd : dlookup m b with
    | none =>
      unfold iterParent at hreach
      rw [hd] at hreach
      exact absurd hreach (by simp)
    | some pq =>
      unfold chainList
      rw [hd]
      have hreach2 : iterParent m n pq = some trunk := by
        unfold iterParent at hreach
        rw [hd] at hreach
        exact hreach
      simp [ih pq hreach2]

theorem create_prs_loop_spec (m : List (String × String)) (trunk : String)
    (hasPR : String → Bool) (n : Nat) (b : String) (acc : List (String × Bool))
    (hreach : iterParent m n b = some trunk)
    (hmin : ∀ k < n, iterParent m k b ≠ some trunk) :
    create_prs_loop m trunk hasPR (n + 1) b acc =
      some (acc.reverse ++ (chainList m n b).map (fun x => (x, !hasPR x))) := by
  induction n generalizing b acc with
  | zero =>
    have hb : b = trunk := by
      unfold iterParent at hreach
      exact Option.some.injEq _ _ ▸ hreach
    unfold create_prs_loop
    rw [if_pos hb]
    simp [chainList]
  | succ n ih =>
    have hb : b ≠ trunk := by
      intro hc
      exact hmin 0 (by omega) (by unfold iterParent; rw [hc])
    cases hd : dlookup m b with
    | none =>
      unfold iterParent at hreach
      rw [hd] at hreach
      exact absurd hreach (by simp)
    | some pq =>
      have hreach2 : iterParent m n pq = some trunk := by
        unfold iterParent at hreach
        rw [hd] at hreach
        exact hreach
      have hmin2 : ∀ k < n, iterParent m k pq ≠ some trunk := by
        intro k hk hc
        refine hmin (k + 1) (by omega) ?_
        unfold iterParent
        rw [hd]
        exact hc
      have hstep : create_prs_loop m trunk hasPR (n + 1 + 1) b acc =
          create_prs_loop m trunk hasPR (n + 1) pq ((b, !hasPR b) :: acc) := by
        rw [show create_prs_loop m trunk hasPR (n + 1 + 1) b acc =
          (if b = trunk then some acc.reverse
           else match dlookup m b with
            | none =>
              if hasPR b then
                create_prs_loop m trunk hasPR (n + 1) b ((b, false) :: acc)
              else none
            | some parent =>
              create_prs_loop m trunk hasPR (n + 1) parent
                ((b, !hasPR b) :: acc)) from rfl, if_neg hb, hd]
      have hchain : chainList m (n + 1) b = b :: chainList m n pq := by
        rw [show chainList m (n + 1) b =
          b :: (match dlookup m b with
                | some p2 => chainList m n p2
                | none => []) from rfl, hd]
      rw [hstep, ih pq ((b, !hasPR b) :: acc) hreach2 hmin2, hchain]
      simp

/-- **C10.** When the parent chain from the original branch first reaches the
trunk after `n` tracked hops, `create_prs` terminates with fuel `n + 1`,
pushes exactly the branches of that chain, each exactly once and oldest first,
creates a change request exactly for those without one, and ends with the
original branch checked out. -/
theorem create_prs_visits_chain (m : List (String × String))
    (trunk original : String) (hasPR : String → Bool) (n : Nat)
    (hreach : iterParent m n original = some trunk)
    (hmin : ∀ k < n, iterParent m k original ≠ some trunk) :
    create_prs m trunk original hasPR (n + 1) =
      some ((chainList m n original).map (fun x => (x, !hasPR x)), original) ∧
    (chainList m n original).Nodup ∧
    (chainList m n original).length = n := by
  refine ⟨?_, chainList_nodup m n original trunk hreach hmin,
    chainList_length m n original trunk hreach⟩
  unfold create_prs
  rw [create_prs_loop_spec m trunk hasPR n original [] hreach hmin]
  simp

/-- C10 witness: a two-branch stack `c → b → main`; both get pushed once, a
request is created for the one lacking it, and `c` is restored. -/
theorem create_prs_visits_chain_witness :
    create_prs [("b", "main"), ("c", "b")] "main" "c"
      (fun x => x == "b") 3 =
      some ([("c", true), ("b", false)], "c") ∧
    (chainList [("b", "main"), ("c", "b")] 2 "c").Nodup ∧
    (chainList [("b", "main"), ("c", "b")] 2 "c").length = 2 := by
  have h := create_prs_visits_chain [("b", "main"), ("c", "b")] "main" "c"
    (fun x => x == "b") 2 (by decide) (by decide)
  refine ⟨?_, h.2.1, h.2.2⟩
  rw [h.1]
  decide

end GitStack
